import Mathlib

/-!
Verification development for the `smalldiffusion` repository
(`src/smalldiffusion/diffusion.py`, `src/smalldiffusion/model.py`).

The Python code is shallowly embedded:

* `Schedule.sample_sigmas` (diffusion.py) is modelled over exact rationals:
  the numpy float64 expression `(N * (1 - arange(0, steps)/steps)).round() - 1`
  is computed in `ℚ` with numpy's round-half-to-even (`npRound`), and Python /
  torch advanced indexing (with negative-index wraparound and `IndexError` on
  out-of-range indices) is `pyGet` / `pyGetList` returning `Option`.
* The generalized sampler `samples` and `DDIM_inversion` (diffusion.py) are
  embedded over an IEEE-style scalar type `FR` (a real number or NaN); tensors
  are batches of flattened rows (`List (List FR)`), the denoiser model is an
  abstract `call`/`rand_input` pair, and the Python-level exceptions that the
  generators can raise (`ZeroDivisionError` from the float expression
  `1/(1-mu)`, `IndexError` from `sigmas[0]` on an empty trajectory) are made
  explicit in the result.
* `ModelMixin.rand_input` and `generate_train_sample` are embedded with the
  torch global RNG as explicit state and the random primitives
  (`torch.randn` / `torch.randint`) as oracle parameters; shapes are tracked
  exactly (`PyTensor`).
* `IdealDenoiser.__call__` (model.py) is embedded at the level of tensor
  shapes and raised errors, which is what its assertions and the claims about
  it concern; torch broadcasting of elementwise ops is `broadcastShapes`.
-/

open scoped Classical

namespace Smalldiffusion

/-! ### numpy rounding and Python indexing, over exact rationals -/

/-- numpy `.round()`: round half to even (banker's rounding), on an exact
rational standing for the float64 value. -/
def npRound (q : ℚ) : ℤ :=
  if q - ⌊q⌋ < 1/2 then ⌊q⌋
  else if 1/2 < q - ⌊q⌋ then ⌊q⌋ + 1
  else if ⌊q⌋ % 2 = 0 then ⌊q⌋ else ⌊q⌋ + 1

/-- Python / torch single-index lookup: negative indices wrap around once;
out-of-range indices raise `IndexError` (modelled as `none`). -/
def pyGet (l : List ℚ) (i : ℤ) : Option ℚ :=
  if 0 ≤ i then l[i.toNat]?
  else if -(l.length : ℤ) ≤ i then l[(l.length + i).toNat]?
  else none

/-- torch advanced indexing `t[list_of_indices]`: look every index up in
order, failing if any single lookup fails. -/
def pyGetList (l : List ℚ) : List ℤ → Option (List ℚ)
  | [] => some []
  | i :: is => do
      let v ← pyGet l i
      let vs ← pyGetList l is
      pure (v :: vs)

/-- The index list of `Schedule.sample_sigmas`:
`list((len(self) * (1 - np.arange(0, steps)/steps)).round().astype(np.int64) - 1)`. -/
def sampleSigmaIndices (N steps : ℕ) : List ℤ :=
  (List.range steps).map (fun k : ℕ => npRound ((N : ℚ) * (1 - (k : ℚ) / (steps : ℚ))) - 1)

/-- `Schedule.sample_sigmas(steps)` (diffusion.py, lines 24-43):
`return self[indices + [0]]`.  The schedule is its 1-D `sigmas` tensor. -/
def sample_sigmas (sigmas : List ℚ) (steps : ℕ) : Option (List ℚ) :=
  pyGetList sigmas (sampleSigmaIndices sigmas.length steps ++ [0])

/-! ### Scalars for the sampler: a real value or NaN -/

/-- IEEE-style scalar used by the sampler embedding: a real number or NaN.
torch float operations never raise; a negative square root produces NaN which
then propagates.  Infinities (produced by torch only via division by zero or
`0 ** negative`, which no settled claim exercises at a meaningful value) are
conflated with NaN. -/
inductive FR where
  | nan : FR
  | val : ℝ → FR

def FR.add : FR → FR → FR
  | .val a, .val b => .val (a + b)
  | _, _ => .nan

def FR.sub : FR → FR → FR
  | .val a, .val b => .val (a - b)
  | _, _ => .nan

def FR.mul : FR → FR → FR
  | .val a, .val b => .val (a * b)
  | _, _ => .nan

/-- torch tensor division; division by zero (an infinity or NaN in torch) is
conflated with NaN. -/
noncomputable def FR.div : FR → FR → FR
  | .val a, .val b => if b = 0 then .nan else .val (a / b)
  | _, _ => .nan

/-- torch `**` on float tensors.  For a nonnegative base this is the real
power `Real.rpow` (with `0 ** 0 = 1` as in torch); `0 ** negative` (infinite
in torch) is conflated with NaN; a negative base gives the signed real power
for integral exponents and NaN otherwise, as torch does. -/
noncomputable def FR.pow : FR → FR → FR
  | .val x, .val y =>
      if 0 < x ∨ (x = 0 ∧ 0 ≤ y) then .val (x ^ y)
      else if x = 0 then .nan
      else if ∃ n : ℤ, (n : ℝ) = y then .val (x ^ y)
      else .nan
  | _, _ => .nan

/-- torch `.sqrt()`: NaN on negative inputs, never an exception. -/
noncomputable def FR.sqrt : FR → FR
  | .val a => if a < 0 then .nan else .val (Real.sqrt a)
  | .nan => .nan

/-! ### Tensors and the generalized sampler (diffusion.py, lines 142-237) -/

/-- A tensor as the sampler sees it: a batch of flattened per-example rows.
Elementwise binary ops require matching shapes (the model contract); shape
checking by the torch runtime is outside this embedding. -/
abbrev Tensor := List (List FR)

def tadd (a b : Tensor) : Tensor := List.zipWith (List.zipWith FR.add) a b

def tsub (a b : Tensor) : Tensor := List.zipWith (List.zipWith FR.sub) a b

/-- Multiplication of a tensor by a (0-dimensional, broadcast) scalar. -/
def tscale (t : Tensor) (c : FR) : Tensor :=
  t.map (fun row => row.map (fun a => FR.mul a c))

/-- The model contract consumed by the sampler: `model(x, sigma) -> eps` and
`model.rand_input(batchsize)`. -/
structure ModelM where
  call : Tensor → FR → Tensor
  rand_input : ℕ → Tensor

/-- Python-level exceptions the generators can raise:
`ZeroDivisionError` from the Python float expression `1/(1-mu)` when `mu = 1`,
and `IndexError` from `sigmas[0]` when `xt is None` and the trajectory is
empty. -/
inductive PyErr where
  | zeroDivision : PyErr
  | indexError : PyErr
deriving DecidableEq

/-- `sig_p = (sig_prev/sig**mu)**(1/(1-mu))` (diffusion.py line 187),
for `mu ≠ 1` (at `mu = 1` the sampler raises before this value is formed). -/
noncomputable def sigPof (mu : ℝ) (sig sigPrev : FR) : FR :=
  FR.pow (FR.div sigPrev (FR.pow sig (FR.val mu))) (FR.val (1 / (1 - mu)))

/-- The sampling loop `for i, (sig, sig_prev) in enumerate(pairwise(sigmas))`
of `samples` (diffusion.py lines 184-192).  The `i > 0` test of the source
coincides with `eps_prev` having been set by a previous iteration, so the
previous noise estimate is carried as an `Option`.  Returns the list of
yielded states and the exception, if any, that ended the generator early. -/
noncomputable def samplesLoop (m : ModelM) (gam mu : ℝ) (batchsize : ℕ) :
    List (FR × FR) → Tensor → Option Tensor → List Tensor × Option PyErr
  | [], _, _ => ([], none)
  | (sig, sigPrev) :: rest, xt, epsPrev =>
      let eps := m.call xt sig
      let epsAv :=
        match epsPrev with
        | some ep => tadd (tscale eps (FR.val gam)) (tscale ep (FR.val (1 - gam)))
        | none => eps
      if (1 : ℝ) - mu = 0 then ([], some PyErr.zeroDivision)
      else
        let sigP := sigPof mu sig sigPrev
        let eta := FR.sqrt (FR.sub (FR.mul sigPrev sigPrev) (FR.mul sigP sigP))
        let xt2 := tadd (tsub xt (tscale epsAv (FR.sub sig sigP)))
                        (tscale (m.rand_input batchsize) eta)
        match samplesLoop m gam mu batchsize rest xt2 (some eps) with
        | (tl, e) => (xt2 :: tl, e)

/-- The generator `samples(model, sigmas, gam, mu, xt, accelerator, batchsize)`
(diffusion.py lines 142-192), run to exhaustion: the list of yielded tensors
together with the exception, if any, that terminated it.  Device placement
(`accelerator`, `.to(...)`) is ignored. -/
noncomputable def samples (m : ModelM) (sigmas : List FR) (gam mu : ℝ)
    (xtOpt : Option Tensor) (batchsize : ℕ) : List Tensor × Option PyErr :=
  match xtOpt with
  | none =>
      match sigmas with
      | [] => ([], some PyErr.indexError)
      | s0 :: _ =>
          let xt := tscale (m.rand_input batchsize) s0
          match samplesLoop m gam mu batchsize (sigmas.zip sigmas.tail) xt none with
          | (tl, e) => (xt :: tl, e)
  | some xt =>
      match samplesLoop m gam mu xt.length (sigmas.zip sigmas.tail) xt none with
      | (tl, e) => (xt :: tl, e)

/-- The sampling loop of `DDIM_inversion` (diffusion.py lines 231-237);
textually identical to the loop of `samples`. -/
noncomputable def ddimLoop (m : ModelM) (gam mu : ℝ) (batchsize : ℕ) :
    List (FR × FR) → Tensor → Option Tensor → List Tensor × Option PyErr
  | [], _, _ => ([], none)
  | (sig, sigPrev) :: rest, xt, epsPrev =>
      let eps := m.call xt sig
      let epsAv :=
        match epsPrev with
        | some ep => tadd (tscale eps (FR.val gam)) (tscale ep (FR.val (1 - gam)))
        | none => eps
      if (1 : ℝ) - mu = 0 then ([], some PyErr.zeroDivision)
      else
        let sigP := sigPof mu sig sigPrev
        let eta := FR.sqrt (FR.sub (FR.mul sigPrev sigPrev) (FR.mul sigP sigP))
        let xt2 := tadd (tsub xt (tscale epsAv (FR.sub sig sigP)))
                        (tscale (m.rand_input batchsize) eta)
        match ddimLoop m gam mu batchsize rest xt2 (some eps) with
        | (tl, e) => (xt2 :: tl, e)

/-- The generator `DDIM_inversion(model, sigmas, xt, gam, mu, accelerator,
batchsize)` (diffusion.py lines 194-237), run to exhaustion.  Its body is
textually identical to `samples`; the `xt is None` branch is kept even though
the parameter is required. -/
noncomputable def DDIM_inversion (m : ModelM) (sigmas : List FR)
    (xtOpt : Option Tensor) (gam mu : ℝ) (batchsize : ℕ) :
    List Tensor × Option PyErr :=
  match xtOpt with
  | none =>
      match sigmas with
      | [] => ([], some PyErr.indexError)
      | s0 :: _ =>
          let xt := tscale (m.rand_input batchsize) s0
          match ddimLoop m gam mu batchsize (sigmas.zip sigmas.tail) xt none with
          | (tl, e) => (xt :: tl, e)
  | some xt =>
      match ddimLoop m gam mu xt.length (sigmas.zip sigmas.tail) xt none with
      | (tl, e) => (xt :: tl, e)

/-- `torch.zeros_like`: a tensor of zeros with the shape of `t`. -/
def zerosLike (t : Tensor) : Tensor := t.map (fun row => row.map (fun _ => FR.val 0))

/-- A model predicting zero noise everywhere, with an arbitrary
`rand_input`. -/
noncomputable def mZeroR (ri : ℕ → Tensor) : ModelM :=
  ⟨fun x _ => zerosLike x, ri⟩

/-- A concrete model predicting zero noise, whose `rand_input` returns the
1 x 1 zero tensor. -/
noncomputable def mZero : ModelM := mZeroR (fun _ => [[FR.val 0]])

/-- The first state yielded by `samples`: the supplied `xt`, or
`model.rand_input(batchsize) * sigmas[0]` when none is supplied. -/
noncomputable def firstState (ri : ℕ → Tensor) (σ0 : ℝ) (batchsize : ℕ)
    (xtOpt : Option Tensor) : Tensor :=
  match xtOpt with
  | some t => t
  | none => tscale (ri batchsize) (FR.val σ0)

/-! ### Shaped tensors, the torch RNG, and the training-sample generator -/

/-- A torch tensor tracked as its shape plus flat (row-major) data. -/
structure PyTensor where
  shape : List ℕ
  data : List ℝ

/-- The torch global random generator, abstractly: `draw state shape` is the
standard-normal sample `torch.randn(shape)` produces from a given generator
state, and `next` is the state after a draw.  The actual values are opaque;
only the state-dependence matters to the claims. -/
structure RandnSource where
  draw : ℕ → List ℕ → List ℝ
  next : ℕ → ℕ

/-- `torch.manual_seed(seed)`: the global generator state becomes a function
of the seed alone. -/
def torch_manual_seed (seed : ℕ) : ℕ := seed

/-- `ModelMixin.rand_input(batchsize)` (model.py lines 19-27): reseed the
global RNG with the fixed seed 42, assert `input_dims` exists, then draw
`torch.randn((batchsize,) + input_dims)`.  Returns the result (or the
assertion error) together with the final RNG state; the incoming state `_g`
is discarded by the reseed. -/
def ModelMixin_rand_input (src : RandnSource) (input_dims : Option (List ℕ))
    (batchsize : ℕ) (_g : ℕ) : Except String PyTensor × ℕ :=
  let g1 := torch_manual_seed 42
  match input_dims with
  | none => (Except.error "Model must have input_dims attribute!", g1)
  | some dims =>
      (Except.ok ⟨batchsize :: dims, src.draw g1 (batchsize :: dims)⟩, src.next g1)

/-- `Schedule.sample_batch(x0)` (diffusion.py lines 45-54):
`self[torch.randint(len(self), (batchsize,))].to(x0)` with
`batchsize = x0.shape[0]`.  `randint` is the oracle for `torch.randint`; its
contract (values `< len(self)`, length `batchsize`) is assumed where needed.
The dtype/device cast `.to(x0)` is ignored. -/
noncomputable def Schedule.sample_batch (sigmas : List ℝ)
    (randint : ℕ → ℕ → List ℕ) (x0 : PyTensor) : PyTensor :=
  let batchsize := x0.shape.headD 0
  ⟨[batchsize], (randint sigmas.length batchsize).map (fun i => sigmas.getD i 0)⟩

/-- `sigma.unsqueeze(-1)`: append a singleton dimension. -/
def unsqueezeLast (t : PyTensor) : PyTensor := ⟨t.shape ++ [1], t.data⟩

/-- The loop `while len(sigma.shape) < len(x0.shape): sigma = sigma.unsqueeze(-1)`
(diffusion.py lines 97-98), with explicit fuel (the loop adds one dimension
per iteration, so `targetRank` iterations always suffice). -/
def padSigmaLoop (targetRank : ℕ) : ℕ → PyTensor → PyTensor
  | 0, t => t
  | fuel + 1, t =>
      if t.shape.length < targetRank then padSigmaLoop targetRank fuel (unsqueezeLast t)
      else t

/-- `generate_train_sample(x0, schedule)` (diffusion.py lines 91-103).
`randn` is the oracle for the values of `torch.randn_like(x0)`, which by the
torch contract has exactly `x0`'s shape. -/
noncomputable def generate_train_sample (sigmas : List ℝ)
    (randint : ℕ → ℕ → List ℕ) (randn : ℕ → ℝ) (x0 : PyTensor) :
    PyTensor × PyTensor :=
  let sigma := Schedule.sample_batch sigmas randint x0
  let sigma2 := padSigmaLoop x0.shape.length x0.shape.length sigma
  let eps : PyTensor := ⟨x0.shape, (List.range x0.shape.prod).map randn⟩
  (sigma2, eps)

/-! ### Shape semantics of IdealDenoiser.__call__ (model.py, lines 62-84) -/

/-- Broadcast of one dimension pair, as torch does for elementwise ops. -/
def broadcastDim (a b : ℕ) : Option ℕ :=
  if a = b then some a else if a = 1 then some b else if b = 1 then some a else none

/-- Broadcast of two shapes given in reversed (trailing-first) order. -/
def broadcastRev : List ℕ → List ℕ → Option (List ℕ)
  | [], l => some l
  | l, [] => some l
  | a :: ra, b :: rb => do
      let d ← broadcastDim a b
      let rest ← broadcastRev ra rb
      pure (d :: rest)

/-- torch broadcasting of two shapes: align trailing dimensions, pad the
shorter shape with leading ones, combine dimensionwise. -/
def broadcastShapes (s1 s2 : List ℕ) : Option (List ℕ) :=
  (broadcastRev s1.reverse s2.reverse).map List.reverse

/-- `t.flatten(start_dim=1)` at shape level: a tensor of rank at least 2 maps
to `(b, prod rest)`; ranks 0 and 1 raise `IndexError` (dimension out of
range). -/
def flatten1Shape : List ℕ → Option (ℕ × ℕ)
  | b :: c :: rest => some (b, (c :: rest).prod)
  | _ => none

/-- `sq_norm(M, k)` (model.py lines 64-66) at shape level: a `b x n` matrix
maps to `b x k`. -/
def sq_normShape (m : ℕ × ℕ) (k : ℕ) : ℕ × ℕ := (m.1, k)

/-- `.T` on a 2-D tensor, at shape level. -/
def transposeShape2 (m : ℕ × ℕ) : ℕ × ℕ := (m.2, m.1)

/-- 2-D matrix multiplication at shape level. -/
def matmulShape (a b : ℕ × ℕ) : Option (ℕ × ℕ) :=
  if a.2 = b.1 then some (a.1, b.2) else none

/-- Elementwise op on two 2-D tensors at shape level (torch broadcasting). -/
def addShape2 (a b : ℕ × ℕ) : Option (ℕ × ℕ) := do
  let d1 ← broadcastDim a.1 b.1
  let d2 ← broadcastDim a.2 b.2
  pure (d1, d2)

/-- `torch.einsum('ij,j...->i...', weights, data)` at shape level. -/
def einsumShape (w : ℕ × ℕ) (d : List ℕ) : Option (List ℕ) :=
  match d with
  | j :: rest => if w.2 = j then some (w.1 :: rest) else none
  | [] => none

/-- The body of `IdealDenoiser.__call__` after the sigma assertion
(model.py lines 75-84), at shape level.  `dataShape` is the shape of the
stacked dataset `self.data`, `xShape` the shape of the input `x`.  The
softmax over `-sq_diffs/2/sigma**2` and the final division by the scalar
`sigma` keep shapes unchanged, so only their operands' shapes appear. -/
def IdealDenoiser_call_body (dataShape xShape : List ℕ) : Except String (List ℕ) :=
  match flatten1Shape xShape with
  | none => Except.error "flatten dimension out of range"
  | some xf =>
  match flatten1Shape dataShape with
  | none => Except.error "flatten dimension out of range"
  | some df =>
  -- xb, xr = x_flat.shape ; db, dr = d_flat.shape ; assert xr == dr
  if xf.2 = df.2 then
    -- sq_diffs = sq_norm(x_flat, db) + sq_norm(d_flat, xb).T - 2 * x_flat @ d_flat.T
    match (do
        let t3 ← matmulShape xf (transposeShape2 df)
        let s1 ← addShape2 (sq_normShape xf df.1) (transposeShape2 (sq_normShape df xf.1))
        addShape2 s1 t3 : Option (ℕ × ℕ)) with
    | none => Except.error "sq_diffs shape mismatch"
    | some sqDiffs =>
        -- weights = softmax(-sq_diffs/2/sigma**2, dim=1): shape of sq_diffs
        match einsumShape sqDiffs dataShape with
        | none => Except.error "einsum shape mismatch"
        | some e =>
            -- x - einsum(...) broadcasts x against the einsum result
            match broadcastShapes xShape e with
            | none => Except.error "shape mismatch"
            | some sub => Except.ok sub
  else Except.error "Input x must have same dimension as data!"

/-- `IdealDenoiser.__call__(x, sigma)` (model.py lines 73-84) at shape level:
the first statement is `assert sigma.shape == tuple()`. -/
def IdealDenoiser_call (dataShape xShape sigmaShape : List ℕ) :
    Except String (List ℕ) :=
  if sigmaShape ≠ [] then Except.error "Only singleton sigma supported"
  else IdealDenoiser_call_body dataShape xShape

/-! ## Supporting lemmas -/

theorem npRound_nonneg {q : ℚ} (h : 0 ≤ q) : 0 ≤ npRound q := by
  have hf : (0 : ℤ) ≤ ⌊q⌋ := Int.floor_nonneg.mpr h
  unfold npRound
  split
  · exact hf
  · split
    · omega
    · split <;> omega

theorem npRound_le {q : ℚ} {c : ℤ} (h : q ≤ c) : npRound q ≤ c := by
  rcases eq_or_lt_of_le h with heq | hlt
  · have hfl : ⌊q⌋ = c := by rw [heq, Int.floor_intCast]
    have hr : q - ⌊q⌋ = 0 := by rw [hfl, heq]; ring
    unfold npRound
    rw [hr]
    norm_num [hfl]
  · have hfl : ⌊q⌋ < c := by
      have := Int.floor_le_floor hlt.le
      rcases lt_or_eq_of_le (Int.floor_le_floor hlt.le) with h1 | h1
      · simpa [Int.floor_intCast] using h1
      · exfalso
        have : (c : ℚ) ≤ q := by
          have h2 : ⌊q⌋ = c := by simpa [Int.floor_intCast] using h1
          calc (c : ℚ) = (⌊q⌋ : ℚ) := by rw [h2]
            _ ≤ q := Int.floor_le q
        exact absurd hlt (not_lt.mpr this)
    unfold npRound
    split
    · omega
    · split
      · omega
      · split <;> omega

theorem pyGet_isSome {l : List ℚ} {i : ℤ} (h1 : -(l.length : ℤ) ≤ i)
    (h2 : i < l.length) : (pyGet l i).isSome := by
  unfold pyGet
  by_cases h0 : 0 ≤ i
  · have : i.toNat < l.length := by omega
    simp [h0, List.getElem?_eq_getElem this]
  · have hneg : i < 0 := by omega
    have : (l.length + i).toNat < l.length := by omega
    simp [h0, h1, List.getElem?_eq_getElem this]

theorem pyGetList_some (s : List ℚ) :
    ∀ l : List ℤ, (∀ i ∈ l, -(s.length : ℤ) ≤ i ∧ i < s.length) →
      ∃ out, pyGetList s l = some out ∧ out.length = l.length := by
  intro l
  induction l with
  | nil => intro _; exact ⟨[], rfl, rfl⟩
  | cons i is ih =>
      intro h
      obtain ⟨h1, h2⟩ := h i (List.mem_cons_self i is)
      obtain ⟨v, hv⟩ := Option.isSome_iff_exists.mp (pyGet_isSome h1 h2)
      obtain ⟨out, hout, hlen⟩ := ih (fun j hj => h j (List.mem_cons_of_mem i hj))
      refine ⟨v :: out, ?_, by simp [hlen]⟩
      simp [pyGetList, hv, hout]

theorem pyGetList_append (s : List ℚ) :
    ∀ l1 l2 : List ℤ, pyGetList s (l1 ++ l2) =
      (pyGetList s l1).bind (fun o1 => (pyGetList s l2).map (fun o2 => o1 ++ o2)) := by
  intro l1 l2
  induction l1 with
  | nil =>
      simp only [List.nil_append, pyGetList]
      cases pyGetList s l2 <;> simp
  | cons i is ih =>
      simp only [List.cons_append, pyGetList]
      cases h : pyGet s i <;>
        cases h2 : pyGetList s is <;>
        cases h3 : pyGetList s l2 <;>
        simp [ih, h2, h3]

theorem sampleSigmaIndices_bounds {N steps : ℕ} (hN : 1 ≤ N) :
    ∀ i ∈ sampleSigmaIndices N steps, -(N : ℤ) ≤ i ∧ i < N := by
  intro i hi
  rw [sampleSigmaIndices, List.mem_map] at hi
  obtain ⟨k, hkmem, hik⟩ := hi
  rw [List.mem_range] at hkmem
  subst hik
  have hk : k < steps := hkmem
  have hsteps : 0 < steps := lt_of_le_of_lt (Nat.zero_le k) hk
  have hNQ : (0 : ℚ) ≤ (N : ℚ) := Nat.cast_nonneg N
  have hq0 : (0 : ℚ) ≤ (N : ℚ) * (1 - (k : ℚ) / (steps : ℚ)) := by
    have hk1 : (k : ℚ) / (steps : ℚ) ≤ 1 := by
      rw [div_le_one (by exact_mod_cast hsteps)]
      exact_mod_cast hk.le
    have h2 : (0 : ℚ) ≤ 1 - (k : ℚ) / (steps : ℚ) := by linarith
    exact mul_nonneg hNQ h2
  have hqN : (N : ℚ) * (1 - (k : ℚ) / (steps : ℚ)) ≤ (N : ℤ) := by
    have hk0 : (0 : ℚ) ≤ (k : ℚ) / (steps : ℚ) := by positivity
    have h1 : 1 - (k : ℚ) / (steps : ℚ) ≤ 1 := by linarith
    calc (N : ℚ) * (1 - (k : ℚ) / (steps : ℚ)) ≤ (N : ℚ) * 1 :=
          mul_le_mul_of_nonneg_left h1 hNQ
      _ = ((N : ℤ) : ℚ) := by push_cast; ring
  have hle := npRound_le hqN
  have hge := npRound_nonneg hq0
  omega

theorem FR.sub_val_zero (a : FR) : FR.sub a (FR.val 0) = a := by
  cases a with
  | nan => rfl
  | val r => simp [FR.sub]

theorem FR.add_val_zero (a : FR) : FR.add a (FR.val 0) = a := by
  cases a with
  | nan => rfl
  | val r => simp [FR.add]

theorem FR.mul_nan (a : FR) : FR.mul a FR.nan = FR.nan := by
  cases a <;> rfl

theorem FR.add_nan (a : FR) : FR.add a FR.nan = FR.nan := by
  cases a <;> rfl

theorem FR.div_val {a b : ℝ} (hb : b ≠ 0) :
    FR.div (FR.val a) (FR.val b) = FR.val (a / b) := by
  simp [FR.div, hb]

theorem FR.pow_val_of_pos {x : ℝ} (y : ℝ) (hx : 0 < x) :
    FR.pow (FR.val x) (FR.val y) = FR.val (x ^ y) := by
  simp [FR.pow, Or.inl hx]

theorem FR.pow_val_zero {x : ℝ} (hx : 0 ≤ x) :
    FR.pow (FR.val x) (FR.val 0) = FR.val 1 := by
  have hc : 0 < x ∨ (x = 0 ∧ (0 : ℝ) ≤ 0) := by
    rcases lt_or_eq_of_le hx with h | h
    · exact Or.inl h
    · exact Or.inr ⟨h.symm, le_refl 0⟩
  simp [FR.pow, hc, Real.rpow_zero]

theorem FR.pow_zero_val_one : FR.pow (FR.val 0) (FR.val 1) = FR.val 0 := by
  have hc : (0 : ℝ) < 0 ∨ ((0 : ℝ) = 0 ∧ (0 : ℝ) ≤ 1) := Or.inr ⟨rfl, by norm_num⟩
  simp [FR.pow, hc, Real.rpow_one]

theorem FR.sqrt_val_zero : FR.sqrt (FR.val 0) = FR.val 0 := by
  simp [FR.sqrt, Real.sqrt_zero]

theorem FR.sqrt_val_neg {a : ℝ} (ha : a < 0) : FR.sqrt (FR.val a) = FR.nan := by
  simp [FR.sqrt, ha]

theorem sigPof_zero {σ0 : ℝ} (h0 : 0 < σ0) :
    sigPof 0 (FR.val σ0) (FR.val 0) = FR.val 0 := by
  unfold sigPof
  rw [FR.pow_val_zero h0.le, FR.div_val one_ne_zero]
  norm_num [FR.pow_zero_val_one]

theorem sigPof_half_one_two : sigPof (1/2) (FR.val 1) (FR.val 2) = FR.val 4 := by
  unfold sigPof
  rw [FR.pow_val_of_pos (1/2) one_pos, Real.one_rpow, FR.div_val one_ne_zero]
  norm_num
  rw [FR.pow_val_of_pos 2 two_pos]
  have h4 : (2 : ℝ) ^ (2 : ℝ) = 4 := by
    rw [show (2 : ℝ) = ((2 : ℕ) : ℝ) from by norm_num, Real.rpow_natCast]
    norm_num
  rw [h4]

theorem zipWith_val_zero_right {f : FR → FR → FR} (hf : ∀ a, f a (FR.val 0) = a) :
    ∀ (row zr : List FR), zr.length = row.length → (∀ a ∈ zr, a = FR.val 0) →
      List.zipWith f row zr = row := by
  intro row
  induction row with
  | nil =>
      intro zr hlen _
      cases zr with
      | nil => rfl
      | cons b tb => simp at hlen
  | cons a ta ih =>
      intro zr hlen hz
      cases zr with
      | nil => simp at hlen
      | cons b tb =>
          have hb : b = FR.val 0 := hz b (List.mem_cons_self b tb)
          have hlen2 : tb.length = ta.length := by simpa using hlen
          have hz2 : ∀ x ∈ tb, x = FR.val 0 := fun x hx => hz x (List.mem_cons_of_mem b hx)
          simp [hb, hf, ih tb hlen2 hz2]

theorem tbin_right_zeros {f : FR → FR → FR} (hf : ∀ a, f a (FR.val 0) = a) :
    ∀ (t z : Tensor), z.map List.length = t.map List.length →
      (∀ row ∈ z, ∀ a ∈ row, a = FR.val 0) →
      List.zipWith (List.zipWith f) t z = t := by
  intro t
  induction t with
  | nil =>
      intro z hshape _
      cases z with
      | nil => rfl
      | cons _ _ => simp at hshape
  | cons row rest ih =>
      intro z hshape hz
      cases z with
      | nil => simp at hshape
      | cons zr zrest =>
          simp only [List.map_cons, List.cons.injEq] at hshape
          obtain ⟨hlen, hrest⟩ := hshape
          have hzr : ∀ a ∈ zr, a = FR.val 0 := hz zr (List.mem_cons_self zr zrest)
          have hrow : List.zipWith f row zr = row :=
            zipWith_val_zero_right hf row zr hlen hzr
          have htl := ih zrest hrest (fun r hr => hz r (List.mem_cons_of_mem zr hr))
          simp [hrow, htl]

theorem tsub_zerosLike (t : Tensor) : tsub t (zerosLike t) = t := by
  apply tbin_right_zeros FR.sub_val_zero
  · simp [zerosLike]
  · intro row hrow a ha
    simp only [zerosLike, List.mem_map] at hrow
    obtain ⟨row0, _, rfl⟩ := hrow
    simp only [List.mem_map] at ha
    obtain ⟨a0, _, rfl⟩ := ha
    rfl

theorem tscale_zerosLike_val (t : Tensor) (c : ℝ) :
    tscale (zerosLike t) (FR.val c) = zerosLike t := by
  simp [tscale, zerosLike, List.map_map, Function.comp, FR.mul]

theorem tscale_map_length (t : Tensor) (c : FR) :
    (tscale t c).map List.length = t.map List.length := by
  simp [tscale]

theorem tscale_val_zero_entries (t : Tensor)
    (ht : ∀ row ∈ t, ∀ a ∈ row, ∃ r, a = FR.val r) :
    ∀ row ∈ tscale t (FR.val 0), ∀ a ∈ row, a = FR.val 0 := by
  intro row hrow a ha
  simp only [tscale, List.mem_map] at hrow
  obtain ⟨row0, hrow0, rfl⟩ := hrow
  simp only [List.mem_map] at ha
  obtain ⟨a0, ha0, rfl⟩ := ha
  obtain ⟨r, rfl⟩ := ht row0 hrow0 a0 ha0
  show FR.mul (FR.val r) (FR.val 0) = FR.val 0
  simp [FR.mul]

theorem mem_zipWith_add_nan :
    ∀ (ra rb : List FR), ∀ a ∈ List.zipWith FR.add ra (rb.map (fun x => FR.mul x FR.nan)),
      a = FR.nan := by
  intro ra
  induction ra with
  | nil => intro rb a ha; simp at ha
  | cons x xs ih =>
      intro rb a ha
      cases rb with
      | nil => simp at ha
      | cons y ys =>
          simp only [List.map_cons, List.zipWith_cons_cons, List.mem_cons] at ha
          rcases ha with rfl | ha
          · rw [FR.mul_nan, FR.add_nan]
          · exact ih ys a ha

theorem mem_tadd_tscale_nan :
    ∀ (A B : Tensor), ∀ row ∈ tadd A (tscale B FR.nan), ∀ a ∈ row, a = FR.nan := by
  intro A
  induction A with
  | nil => intro B row hrow; simp [tadd] at hrow
  | cons ra At ih =>
      intro B row hrow a ha
      cases B with
      | nil => simp [tadd, tscale] at hrow
      | cons rb Bt =>
          simp only [tadd, tscale, List.map_cons, List.zipWith_cons_cons,
            List.mem_cons] at hrow
          rcases hrow with rfl | hrow
          · exact mem_zipWith_add_nan ra rb a ha
          · exact ih Bt row (by simpa [tadd, tscale] using hrow) a ha

theorem samplesLoop_no_err (m : ModelM) (gam mu : ℝ) (bs : ℕ) (hmu : mu ≠ 1) :
    ∀ (pairs : List (FR × FR)) (xt : Tensor) (ep : Option Tensor),
      ∃ l, samplesLoop m gam mu bs pairs xt ep = (l, none) ∧ l.length = pairs.length := by
  intro pairs
  induction pairs with
  | nil => intro xt ep; exact ⟨[], rfl, rfl⟩
  | cons p rest ih =>
      intro xt ep
      obtain ⟨sig, sigPrev⟩ := p
      have h1 : ¬((1 : ℝ) - mu = 0) := fun h => hmu (by linarith)
      simp only [samplesLoop]
      rw [if_neg h1]
      obtain ⟨l, hl, hlen⟩ := ih _ _
      rw [hl]
      exact ⟨_ :: l, rfl, by simp [hlen]⟩

theorem samples_some (m : ModelM) (sigmas : List FR) (gam mu : ℝ)
    (xt : Tensor) (bs : ℕ) :
    samples m sigmas gam mu (some xt) bs =
      (xt :: (samplesLoop m gam mu xt.length (sigmas.zip sigmas.tail) xt none).1,
        (samplesLoop m gam mu xt.length (sigmas.zip sigmas.tail) xt none).2) := rfl

theorem samples_none (m : ModelM) (s0 : FR) (srest : List FR) (gam mu : ℝ) (bs : ℕ) :
    samples m (s0 :: srest) gam mu none bs =
      (tscale (m.rand_input bs) s0 ::
          (samplesLoop m gam mu bs ((s0 :: srest).zip (s0 :: srest).tail)
            (tscale (m.rand_input bs) s0) none).1,
        (samplesLoop m gam mu bs ((s0 :: srest).zip (s0 :: srest).tail)
          (tscale (m.rand_input bs) s0) none).2) := rfl

/-! ## Claims about Schedule.sample_sigmas (C1, C2) -/

/-- C1 (counterexample): for the Schedule `[1, 2, 4, 8]` and `steps = 3`,
`sample_sigmas` succeeds and its last element is `1` — the first stored
sigma, not `0`. -/
theorem C1_last_sigma_cex :
    ((sample_sigmas [1, 2, 4, 8] 3).map (fun out => out.getLast?)) = some (some 1) ∧
      (1 : ℚ) ≠ 0 := by
  constructor
  · norm_num [sample_sigmas, sampleSigmaIndices, pyGetList, pyGet, npRound, List.range_succ]
  · norm_num

/-- C1 (amended): for every nonempty Schedule and every `steps ≥ 1`,
`sample_sigmas(steps)` succeeds with exactly `steps + 1` values, and its
last element equals the schedule's first stored sigma `sigmas[0]` (the
appended index is `0`; no synthetic zero sigma is appended). -/
theorem C1_sample_sigmas_length_last (sigmas : List ℚ) (steps : ℕ)
    (hne : sigmas ≠ []) (_hsteps : 1 ≤ steps) :
    ∃ out, sample_sigmas sigmas steps = some out ∧
      out.length = steps + 1 ∧ out.getLast? = sigmas.head? := by
  have hN : 1 ≤ sigmas.length := List.length_pos.mpr hne
  obtain ⟨out1, hout1, hlen1⟩ :=
    pyGetList_some sigmas (sampleSigmaIndices sigmas.length steps)
      (sampleSigmaIndices_bounds hN)
  obtain ⟨s0, t, rfl⟩ : ∃ s0 t, sigmas = s0 :: t := by
    cases sigmas with
    | nil => exact absurd rfl hne
    | cons a l => exact ⟨a, l, rfl⟩
  have hget0 : pyGet (s0 :: t) 0 = some s0 := by simp [pyGet]
  have hlist0 : pyGetList (s0 :: t) [0] = some [s0] := by
    simp [pyGetList, hget0]
  refine ⟨out1 ++ [s0], ?_, ?_, ?_⟩
  · rw [sample_sigmas, pyGetList_append, hout1, hlist0]
    rfl
  · simp [hlen1, sampleSigmaIndices]
  · simp [List.getLast?_concat]

/-- C1 witness: the amended statement applied at the Schedule `[1, 2, 4, 8]`
with `steps = 3`. -/
theorem C1_sample_sigmas_length_last_witness :
    ([1, 2, 4, 8] : List ℚ) ≠ [] ∧ 1 ≤ 3 ∧
      (∃ out, sample_sigmas [1, 2, 4, 8] 3 = some out ∧
        out.length = 3 + 1 ∧ out.getLast? = ([1, 2, 4, 8] : List ℚ).head?) :=
  ⟨by simp, by norm_num,
    C1_sample_sigmas_length_last [1, 2, 4, 8] 3 (by simp) (by norm_num)⟩

/-- C2 (counterexample): `sample_sigmas` on the Schedule `[1, 2, 4, 8]` with
`steps = 3` does not return `[8, 4, 2, 0]`. -/
theorem C2_concrete_cex : sample_sigmas [1, 2, 4, 8] 3 ≠ some [8, 4, 2, 0] := by
  norm_num [sample_sigmas, sampleSigmaIndices, pyGetList, pyGet, npRound, List.range_succ]

/-- C2 (amended): for the Schedule `[1, 2, 4, 8]` (N = 4), the index
computation `round(4 * (1 - k/3)) - 1` for `k = 0, 1, 2` gives `[3, 2, 0]`
(the fractions are scaled by `N` with 1 subtracted after rounding, not
rounded over the range `[0, N-1]`), the appended index `0` selects
`sigmas[0] = 1`, and the returned sigma sequence is `[8, 4, 1, 1]`. -/
theorem C2_concrete :
    sampleSigmaIndices 4 3 = [3, 2, 0] ∧
      sample_sigmas [1, 2, 4, 8] 3 = some [8, 4, 1, 1] := by
  constructor
  · simp only [sampleSigmaIndices, List.range_succ, List.range_zero, List.map_nil,
      List.map_append, List.map_cons, List.nil_append]
    norm_num [npRound]
  · norm_num [sample_sigmas, sampleSigmaIndices, pyGetList, pyGet, npRound, List.range_succ]
    exact ⟨rfl, rfl⟩

/-! ## Claims about the generalized sampler (C3, C4, C5, C6) -/

/-- C3 (counterexample): at `mu = 1` the sampler raises `ZeroDivisionError`
(from the Python float expression `1/(1-mu)`) during its first transition:
on the 1-step trajectory `[1, 0]` it yields only 1 tensor, not
`steps + 1 = 2`. -/
theorem C3_mu_one_cex :
    (samples mZero [FR.val 1, FR.val 0] 1 1 (some [[FR.val 0]]) 1).1.length = 1 ∧
      (samples mZero [FR.val 1, FR.val 0] 1 1 (some [[FR.val 0]]) 1).2 =
        some PyErr.zeroDivision ∧ (1 : ℕ) ≠ 1 + 1 := by
  refine ⟨?_, ?_, by norm_num⟩ <;>
    simp [samples, samplesLoop, mZero, mZeroR, zerosLike]

/-- C3 (amended): for every model, every sigma trajectory of length
`steps + 1`, every `gam`, every `mu ≠ 1` (at `mu = 1` the Python expression
`1/(1-mu)` raises `ZeroDivisionError`), and any starting tensor — supplied
(`some xt`) or freshly sampled (`none`) — the generator yields exactly
`steps + 1` tensors and raises no exception. -/
theorem C3_samples_length (m : ModelM) (gam mu : ℝ) (bs steps : ℕ)
    (sigmas : List FR) (xtOpt : Option Tensor)
    (hlen : sigmas.length = steps + 1) (hmu : mu ≠ 1) :
    (samples m sigmas gam mu xtOpt bs).1.length = steps + 1 ∧
      (samples m sigmas gam mu xtOpt bs).2 = none := by
  have hz : (sigmas.zip sigmas.tail).length = steps := by
    rw [List.length_zip, List.length_tail, hlen]
    simp
  cases xtOpt with
  | some xt =>
      obtain ⟨l, hl, hlen2⟩ :=
        samplesLoop_no_err m gam mu xt.length hmu (sigmas.zip sigmas.tail) xt none
      rw [samples_some, hl]
      exact ⟨by simp [hlen2, hz], rfl⟩
  | none =>
      cases sigmas with
      | nil => simp at hlen
      | cons s0 srest =>
          obtain ⟨l, hl, hlen2⟩ :=
            samplesLoop_no_err m gam mu bs hmu
              ((s0 :: srest).zip (s0 :: srest).tail)
              (tscale (m.rand_input bs) s0) none
          rw [samples_none, hl]
          have hsl : srest.length = steps := by
            simp at hlen
            omega
          exact ⟨by simp [hlen2, hz, hsl], rfl⟩

/-- C3 witness: the amended statement at a concrete 1-step DDIM invocation. -/
theorem C3_samples_length_witness :
    (([FR.val 1, FR.val 0] : List FR).length = 1 + 1) ∧ ((0 : ℝ) ≠ 1) ∧
      ((samples mZero [FR.val 1, FR.val 0] 1 0 (some [[FR.val 0]]) 1).1.length = 1 + 1 ∧
        (samples mZero [FR.val 1, FR.val 0] 1 0 (some [[FR.val 0]]) 1).2 = none) :=
  ⟨rfl, by norm_num,
    C3_samples_length mZero 1 0 1 1 [FR.val 1, FR.val 0] (some [[FR.val 0]])
      rfl (by norm_num)⟩

theorem samplesLoop_one (m : ModelM) (gam mu : ℝ) (bs : ℕ) (sig sigPrev : FR)
    (xt : Tensor) (h1 : ¬((1 : ℝ) - mu = 0)) :
    samplesLoop m gam mu bs [(sig, sigPrev)] xt none =
      ([tadd (tsub xt (tscale (m.call xt sig) (FR.sub sig (sigPof mu sig sigPrev))))
          (tscale (m.rand_input bs)
            (FR.sqrt (FR.sub (FR.mul sigPrev sigPrev)
              (FR.mul (sigPof mu sig sigPrev) (sigPof mu sig sigPrev)))))], none) := by
  simp only [samplesLoop]
  rw [if_neg h1]

theorem zero_model_single_step (ri : ℕ → Tensor) (σ0 : ℝ) (bs : ℕ) (xt : Tensor)
    (h0 : 0 < σ0)
    (hreal : ∀ row ∈ ri bs, ∀ a ∈ row, ∃ r, a = FR.val r)
    (hshape : (ri bs).map List.length = xt.map List.length) :
    samplesLoop (mZeroR ri) 1 0 bs [(FR.val σ0, FR.val 0)] xt none = ([xt], none) := by
  rw [samplesLoop_one (mZeroR ri) 1 0 bs (FR.val σ0) (FR.val 0) xt (by norm_num)]
  have hcall : (mZeroR ri).call xt (FR.val σ0) = zerosLike xt := rfl
  have hrand : (mZeroR ri).rand_input bs = ri bs := rfl
  rw [hcall, hrand, sigPof_zero h0]
  rw [show FR.sub (FR.val σ0) (FR.val 0) = FR.val σ0 from by simp [FR.sub]]
  rw [show FR.sqrt (FR.sub (FR.mul (FR.val 0) (FR.val 0))
        (FR.mul (FR.val 0) (FR.val 0))) = FR.val 0 from by
    norm_num [FR.mul, FR.sub, FR.sqrt_val_zero]]
  rw [tscale_zerosLike_val, tsub_zerosLike]
  have htail : tadd xt (tscale (ri bs) (FR.val 0)) = xt := by
    apply tbin_right_zeros FR.add_val_zero
    · rw [tscale_map_length]
      exact hshape
    · exact tscale_val_zero_entries (ri bs) hreal
  rw [htail]

/-- C4 (confirmed): with `gam = 1`, `mu = 0` (DDIM), a single-step trajectory
`[sigma0, 0]` with `sigma0 > 0`, and a model that always predicts zero noise,
the sampler's trajectory is the initial state twice: the final state equals
the initial `xt` (supplied or freshly sampled), since `sig_p` reduces to 0
and `eta = 0`.  The model's `rand_input` is assumed to return finite
(non-NaN) values of the matching shape, as the model contract requires. -/
theorem C4_ddim_zero_model_identity (ri : ℕ → Tensor) (σ0 : ℝ) (bs : ℕ)
    (xtOpt : Option Tensor) (h0 : 0 < σ0)
    (hreal : ∀ b, ∀ row ∈ ri b, ∀ a ∈ row, ∃ r, a = FR.val r)
    (hshape : ∀ t, xtOpt = some t → (ri t.length).map List.length = t.map List.length) :
    samples (mZeroR ri) [FR.val σ0, FR.val 0] 1 0 xtOpt bs =
      ([firstState ri σ0 bs xtOpt, firstState ri σ0 bs xtOpt], none) := by
  have hzip : (([FR.val σ0, FR.val 0] : List FR).zip
      ([FR.val σ0, FR.val 0] : List FR).tail) = [(FR.val σ0, FR.val 0)] := rfl
  cases xtOpt with
  | some xt =>
      have hstep := zero_model_single_step ri σ0 xt.length xt h0
        (hreal xt.length) (hshape xt rfl)
      rw [samples_some, hzip, hstep]
      rfl
  | none =>
      have hshape2 : (ri bs).map List.length =
          (tscale (ri bs) (FR.val σ0)).map List.length :=
        (tscale_map_length _ _).symm
      have hstep := zero_model_single_step ri σ0 bs (tscale (ri bs) (FR.val σ0)) h0
        (hreal bs) hshape2
      have hrand : (mZeroR ri).rand_input bs = ri bs := rfl
      rw [samples_none, hzip, hrand, hstep]
      rfl

/-- C4 witness: the statement at `sigma0 = 1`, `xt = [[1]]`, with a model
whose `rand_input` is the 1 x 1 zero tensor. -/
theorem C4_ddim_zero_model_identity_witness :
    (0 : ℝ) < 1 ∧
      samples (mZeroR (fun _ => [[FR.val 0]])) [FR.val 1, FR.val 0] 1 0
        (some [[FR.val 1]]) 5 = ([[[FR.val 1]], [[FR.val 1]]], none) :=
  ⟨by norm_num, by
    have h := C4_ddim_zero_model_identity (fun _ => [[FR.val 0]]) 1 5
      (some [[FR.val 1]]) (by norm_num)
      (by
        intro b row hrow a ha
        rw [List.mem_singleton] at hrow
        subst hrow
        rw [List.mem_singleton] at ha
        exact ⟨0, ha⟩)
      (by
        intro t ht
        cases ht
        rfl)
    simpa [firstState] using h⟩

/-- C5 (counterexample): on the trajectory `[1, 2]` with `mu = 1/2`, the
radicand `sig_prev^2 - sig_p^2 = 4 - 16` is negative, yet the sampler
surfaces no error: it completes the full trajectory, silently continuing
with a NaN-corrupted state. -/
theorem C5_nan_cex :
    samples mZero [FR.val 1, FR.val 2] 1 (1/2) (some [[FR.val 0]]) 1 =
      ([[[FR.val 0]], [[FR.nan]]], none) := by
  have hone := samplesLoop_one mZero 1 (1/2) 1 (FR.val 1) (FR.val 2) [[FR.val 0]]
    (by norm_num)
  rw [sigPof_half_one_two] at hone
  rw [show FR.sub (FR.mul (FR.val 2) (FR.val 2)) (FR.mul (FR.val 4) (FR.val 4)) =
    FR.val (-12) from by norm_num [FR.mul, FR.sub]] at hone
  rw [FR.sqrt_val_neg (by norm_num : (-12 : ℝ) < 0)] at hone
  have hcall : mZero.call [[FR.val 0]] (FR.val 1) = [[FR.val 0]] := rfl
  rw [hcall] at hone
  rw [show FR.sub (FR.val 1) (FR.val 4) = FR.val (-3) from by norm_num [FR.sub]] at hone
  rw [show tscale [[FR.val 0]] (FR.val (-3)) = [[FR.val 0]] from by
    norm_num [tscale, FR.mul]] at hone
  rw [show tsub [[FR.val 0]] [[FR.val 0]] = [[FR.val 0]] from by
    norm_num [tsub, FR.sub]] at hone
  have hrand : mZero.rand_input 1 = [[FR.val 0]] := rfl
  rw [hrand] at hone
  rw [show tscale [[FR.val 0]] FR.nan = [[FR.nan]] from rfl] at hone
  rw [show tadd [[FR.val 0]] [[FR.nan]] = [[FR.nan]] from rfl] at hone
  rw [samples_some,
    show (([FR.val 1, FR.val 2] : List FR).zip
      ([FR.val 1, FR.val 2] : List FR).tail) = [(FR.val 1, FR.val 2)] from rfl,
    show ([[FR.val 0]] : Tensor).length = 1 from rfl, hone]

/-- C5 (amended): a negative radicand `sig_prev^2 - sig_p^2` does not raise:
`torch.sqrt` returns NaN and the sampler keeps iterating to the end of the
trajectory with no exception; the state produced by the offending step is
entirely NaN (a corrupted value, propagated silently). -/
theorem C5_negative_radicand_no_error (m : ModelM) (gam mu : ℝ) (bs : ℕ)
    (sig sigPrev : FR) (rest : List (FR × FR)) (xt : Tensor) (epsPrev : Option Tensor)
    (hmu : mu ≠ 1)
    (hneg : ∃ r : ℝ, r < 0 ∧
      FR.sub (FR.mul sigPrev sigPrev)
        (FR.mul (sigPof mu sig sigPrev) (sigPof mu sig sigPrev)) = FR.val r) :
    ∃ x2 tl, samplesLoop m gam mu bs ((sig, sigPrev) :: rest) xt epsPrev =
      (x2 :: tl, none) ∧ tl.length = rest.length ∧ ∀ row ∈ x2, ∀ a ∈ row, a = FR.nan := by
  obtain ⟨r, hr, hrad⟩ := hneg
  have h1 : ¬((1 : ℝ) - mu = 0) := fun h => hmu (by linarith)
  simp only [samplesLoop]
  rw [if_neg h1, hrad, FR.sqrt_val_neg hr]
  obtain ⟨l, hl, hlen⟩ := samplesLoop_no_err m gam mu bs hmu rest _ _
  rw [hl]
  exact ⟨_, l, rfl, hlen, fun row hrow a ha => mem_tadd_tscale_nan _ _ row hrow a ha⟩

/-- C5 witness: the amended statement at the concrete step `(sig, sig_prev) =
(1, 2)` with `mu = 1/2`, where the radicand is `-12`. -/
theorem C5_negative_radicand_no_error_witness :
    ((1 : ℝ)/2 ≠ 1) ∧
      (∃ r : ℝ, r < 0 ∧
        FR.sub (FR.mul (FR.val 2) (FR.val 2))
          (FR.mul (sigPof (1/2) (FR.val 1) (FR.val 2))
            (sigPof (1/2) (FR.val 1) (FR.val 2))) = FR.val r) ∧
      (∃ x2 tl, samplesLoop mZero 1 (1/2) 1 [(FR.val 1, FR.val 2)] [[FR.val 0]] none =
        (x2 :: tl, none) ∧ tl.length = ([] : List (FR × FR)).length ∧
        ∀ row ∈ x2, ∀ a ∈ row, a = FR.nan) :=
  ⟨by norm_num,
    ⟨-12, by norm_num, by rw [sigPof_half_one_two]; norm_num [FR.mul, FR.sub]⟩,
    C5_negative_radicand_no_error mZero 1 (1/2) 1 (FR.val 1) (FR.val 2) []
      [[FR.val 0]] none (by norm_num)
      ⟨-12, by norm_num, by rw [sigPof_half_one_two]; norm_num [FR.mul, FR.sub]⟩⟩

theorem ddimLoop_eq_samplesLoop (m : ModelM) (gam mu : ℝ) (bs : ℕ) :
    ∀ (pairs : List (FR × FR)) (xt : Tensor) (ep : Option Tensor),
      ddimLoop m gam mu bs pairs xt ep = samplesLoop m gam mu bs pairs xt ep := by
  intro pairs
  induction pairs with
  | nil => intro xt ep; rfl
  | cons p rest ih =>
      intro xt ep
      obtain ⟨sig, sigPrev⟩ := p
      simp only [ddimLoop, samplesLoop, ih]

/-- C6 (confirmed): for every model, trajectory, `gam`, `mu`, batch size and
non-None starting tensor, `DDIM_inversion` yields exactly the sequence
`samples` yields — the two generators implement the identical update rule. -/
theorem C6_DDIM_inversion_eq_samples (m : ModelM) (sigmas : List FR)
    (xt : Tensor) (gam mu : ℝ) (bs : ℕ) :
    DDIM_inversion m sigmas (some xt) gam mu bs =
      samples m sigmas gam mu (some xt) bs := by
  simp only [DDIM_inversion, samples, ddimLoop_eq_samplesLoop]

/-! ## Claims about rand_input, generate_train_sample and IdealDenoiser
(C7, C8, C9, C10) -/

/-- C7 (confirmed): `ModelMixin.rand_input` reseeds the global torch
generator with the fixed seed 42 immediately before drawing, so two
invocations with the same batchsize produce identical tensors regardless of
the RNG state they start from. -/
theorem C7_rand_input_deterministic (src : RandnSource) (dims : List ℕ)
    (batchsize : ℕ) (g1 g2 : ℕ) :
    (ModelMixin_rand_input src (some dims) batchsize g1).1 =
      (ModelMixin_rand_input src (some dims) batchsize g2).1 := rfl

theorem padSigmaLoop_shape (r : ℕ) :
    ∀ (fuel : ℕ) (t : PyTensor), t.shape.length ≤ r → r - t.shape.length ≤ fuel →
      (padSigmaLoop r fuel t).shape = t.shape ++ List.replicate (r - t.shape.length) 1 ∧
        (padSigmaLoop r fuel t).data = t.data := by
  intro fuel
  induction fuel with
  | zero =>
      intro t h1 h2
      have h0 : r - t.shape.length = 0 := by omega
      simp [padSigmaLoop, h0]
  | succ n ih =>
      intro t h1 h2
      by_cases hlt : t.shape.length < r
      · have hstep : padSigmaLoop r (n + 1) t = padSigmaLoop r n (unsqueezeLast t) := by
          simp [padSigmaLoop, hlt]
        have hu1 : (unsqueezeLast t).shape.length ≤ r := by
          simp only [unsqueezeLast, List.length_append, List.length_cons]
          simp
          omega
        have hu2 : r - (unsqueezeLast t).shape.length ≤ n := by
          simp only [unsqueezeLast, List.length_append]
          simp
          omega
        obtain ⟨hs, hd⟩ := ih (unsqueezeLast t) hu1 hu2
        rw [hstep, hs, hd]
        refine ⟨?_, rfl⟩
        simp only [unsqueezeLast, List.append_assoc, List.length_append,
          List.length_cons, List.length_nil]
        congr 1
        have hk : r - t.shape.length = (r - (t.shape.length + 1)) + 1 := by omega
        rw [hk, List.replicate_succ]
        rfl
      · have h0 : r - t.shape.length = 0 := by omega
        simp [padSigmaLoop, hlt, h0]

/-- C8 (confirmed): for a data batch of rank `r ≥ 1` with leading batch
dimension `B` and any schedule, `generate_train_sample` returns a sigma of
shape `B x 1 x ... x 1` (rank `r`) all of whose entries are stored schedule
sigmas, and an `eps` with exactly `x0`'s shape.  The torch.randint contract
(`B` values, all `< len(schedule)`) is a hypothesis on the randomness
oracle. -/
theorem C8_generate_train_sample (sigmas : List ℝ) (randint : ℕ → ℕ → List ℕ)
    (randn : ℕ → ℝ) (x0 : PyTensor) (B : ℕ) (rest : List ℕ)
    (hx : x0.shape = B :: rest)
    (hlen : (randint sigmas.length B).length = B)
    (hidx : ∀ i ∈ randint sigmas.length B, i < sigmas.length) :
    (generate_train_sample sigmas randint randn x0).1.shape =
        B :: List.replicate rest.length 1 ∧
      (generate_train_sample sigmas randint randn x0).1.data.length = B ∧
      (∀ v ∈ (generate_train_sample sigmas randint randn x0).1.data, v ∈ sigmas) ∧
      (generate_train_sample sigmas randint randn x0).2.shape = x0.shape ∧
      (generate_train_sample sigmas randint randn x0).2.data.length = x0.shape.prod := by
  have hbs : x0.shape.headD 0 = B := by rw [hx]; rfl
  have hsb : Schedule.sample_batch sigmas randint x0 =
      ⟨[B], (randint sigmas.length B).map (fun i => sigmas.getD i 0)⟩ := by
    simp only [Schedule.sample_batch, hbs]
  have hr : x0.shape.length = rest.length + 1 := by rw [hx]; rfl
  have hpad := padSigmaLoop_shape x0.shape.length x0.shape.length
    ⟨[B], (randint sigmas.length B).map (fun i => sigmas.getD i 0)⟩
    (by simp [hr]) (by simp)
  obtain ⟨hps, hpd⟩ := hpad
  have hgen1 : (generate_train_sample sigmas randint randn x0).1 =
      padSigmaLoop x0.shape.length x0.shape.length
        ⟨[B], (randint sigmas.length B).map (fun i => sigmas.getD i 0)⟩ := by
    simp only [generate_train_sample, hsb]
  refine ⟨?_, ?_, ?_, ?_, ?_⟩
  · rw [hgen1, hps]
    simp [hr]
  · rw [hgen1, hpd]
    simp [hlen]
  · rw [hgen1, hpd]
    intro v hv
    simp only [List.mem_map] at hv
    obtain ⟨i, hi, rfl⟩ := hv
    have hilt : i < sigmas.length := hidx i hi
    have : sigmas.getD i 0 = sigmas[i] := by
      simp [List.getD_eq_getElem?_getD, List.getElem?_eq_getElem hilt]
    rw [this]
    exact List.getElem_mem hilt
  · rfl
  · simp [generate_train_sample]

/-- C8 witness: the statement at a rank-2 batch of shape `[2, 3]`, schedule
`[1, 2]`, and a randint oracle returning `[0, 1]`. -/
theorem C8_generate_train_sample_witness :
    (⟨[2, 3], List.replicate 6 0⟩ : PyTensor).shape = 2 :: [3] ∧
      ((fun _ _ => [0, 1] : ℕ → ℕ → List ℕ) ([1, 2] : List ℝ).length 2).length = 2 ∧
      (∀ i ∈ ((fun _ _ => [0, 1] : ℕ → ℕ → List ℕ) ([1, 2] : List ℝ).length 2),
        i < ([1, 2] : List ℝ).length) ∧
      ((generate_train_sample [1, 2] (fun _ _ => [0, 1]) (fun _ => 0)
          ⟨[2, 3], List.replicate 6 0⟩).1.shape = 2 :: List.replicate 1 1 ∧
        (generate_train_sample [1, 2] (fun _ _ => [0, 1]) (fun _ => 0)
          ⟨[2, 3], List.replicate 6 0⟩).1.data.length = 2 ∧
        (∀ v ∈ (generate_train_sample [1, 2] (fun _ _ => [0, 1]) (fun _ => 0)
          ⟨[2, 3], List.replicate 6 0⟩).1.data, v ∈ ([1, 2] : List ℝ)) ∧
        (generate_train_sample [1, 2] (fun _ _ => [0, 1]) (fun _ => 0)
          ⟨[2, 3], List.replicate 6 0⟩).2.shape =
            (⟨[2, 3], List.replicate 6 0⟩ : PyTensor).shape ∧
        (generate_train_sample [1, 2] (fun _ _ => [0, 1]) (fun _ => 0)
          ⟨[2, 3], List.replicate 6 0⟩).2.data.length =
            (⟨[2, 3], List.replicate 6 0⟩ : PyTensor).shape.prod) :=
  ⟨rfl, rfl, by decide,
    C8_generate_train_sample [1, 2] (fun _ _ => [0, 1]) (fun _ => 0)
      ⟨[2, 3], List.replicate 6 0⟩ 2 [3] rfl rfl (by decide)⟩

theorem broadcastRev_self : ∀ l : List ℕ, broadcastRev l l = some l := by
  intro l
  induction l with
  | nil => rfl
  | cons a t ih => simp [broadcastRev, broadcastDim, ih]

theorem broadcastShapes_self (s : List ℕ) : broadcastShapes s s = some s := by
  simp [broadcastShapes, broadcastRev_self]

theorem IdealDenoiser_call_body_ne_scalar_error (d x : List ℕ) :
    IdealDenoiser_call_body d x ≠ Except.error "Only singleton sigma supported" := by
  unfold IdealDenoiser_call_body
  repeat' split <;> try simp

/-- C9 (confirmed): `IdealDenoiser.__call__` fails with its scalar-sigma
assertion — before computing anything else — exactly when sigma is not a true
0-dimensional scalar; for every true scalar sigma that assertion passes
(whatever happens afterwards, it is never this error). -/
theorem C9_ideal_denoiser_scalar_sigma (dataShape xShape sigmaShape : List ℕ) :
    (IdealDenoiser_call dataShape xShape sigmaShape =
        Except.error "Only singleton sigma supported") ↔ sigmaShape ≠ [] := by
  unfold IdealDenoiser_call
  by_cases h : sigmaShape = []
  · simp [h, IdealDenoiser_call_body_ne_scalar_error dataShape xShape]
  · simp [h]

/-- C10 (counterexample): dataset rows of shape `2 x 2` (stacked data shape
`[3, 2, 2]`) and input `x` of shape `[1, 4]`: the flattened per-example
dimensions agree (`2*2 = 4`), so the dimension assertion passes, yet no
tensor of x's shape is returned — the subtraction `x - einsum(...)` fails to
broadcast `[1, 4]` against `[1, 2, 2]`. -/
theorem C10_flattened_dims_cex :
    ([2, 2] : List ℕ).prod = ([4] : List ℕ).prod ∧
      IdealDenoiser_call [3, 2, 2] [1, 4] [] = Except.error "shape mismatch" :=
  ⟨rfl, rfl⟩

/-- C10 (amended): with a scalar sigma and both `x` and the stacked data of
rank at least 2: if the flattened per-example dimensions differ, the call
fails with the dimension assertion error before producing any output;
whenever the two flattened dimensions agree, that assertion never fires
(whatever the per-example shapes are); and if x's per-example shape moreover
equals the dataset rows' per-example shape, a tensor of exactly x's shape is
returned.  (Mere agreement of the flattened dimensions does not guarantee an
output of x's shape: the subtraction may fail to broadcast.) -/
theorem C10_ideal_denoiser_dim (db xb : ℕ) (dtail xtail : List ℕ)
    (hd : dtail ≠ []) (hx : xtail ≠ []) :
    (xtail.prod ≠ dtail.prod →
      IdealDenoiser_call (db :: dtail) (xb :: xtail) [] =
        Except.error "Input x must have same dimension as data!") ∧
    (xtail.prod = dtail.prod →
      IdealDenoiser_call (db :: dtail) (xb :: xtail) [] ≠
        Except.error "Input x must have same dimension as data!") ∧
    (xtail = dtail →
      IdealDenoiser_call (db :: dtail) (xb :: xtail) [] =
        Except.ok (xb :: xtail)) := by
  obtain ⟨d1, dts, rfl⟩ : ∃ d1 dts, dtail = d1 :: dts := by
    cases dtail with
    | nil => exact absurd rfl hd
    | cons a l => exact ⟨a, l, rfl⟩
  obtain ⟨x1, xts, rfl⟩ : ∃ x1 xts, xtail = x1 :: xts := by
    cases xtail with
    | nil => exact absurd rfl hx
    | cons a l => exact ⟨a, l, rfl⟩
  refine ⟨?_, ?_, ?_⟩
  · intro hne
    simp only [IdealDenoiser_call, IdealDenoiser_call_body, flatten1Shape]
    rw [if_neg (by simp)]
    rw [if_neg hne]
  · intro heq
    simp only [IdealDenoiser_call, IdealDenoiser_call_body, flatten1Shape]
    rw [if_neg (by simp)]
    rw [if_pos heq]
    repeat' split <;> try simp
  · intro heq
    cases heq
    simp [IdealDenoiser_call, IdealDenoiser_call_body, flatten1Shape, matmulShape,
      sq_normShape, transposeShape2, addShape2, broadcastDim, einsumShape,
      broadcastShapes_self]

/-- C10 witness: the amended statement at data shape `[4, 3]` and x shape
`[5, 3]` (equal per-example shapes), where the call returns a tensor of x's
shape. -/
theorem C10_ideal_denoiser_dim_witness :
    ([3] : List ℕ) ≠ [] ∧ ([3] : List ℕ) ≠ [] ∧
      ((([3] : List ℕ).prod ≠ ([3] : List ℕ).prod →
        IdealDenoiser_call [4, 3] [5, 3] [] =
          Except.error "Input x must have same dimension as data!") ∧
      (([3] : List ℕ).prod = ([3] : List ℕ).prod →
        IdealDenoiser_call [4, 3] [5, 3] [] ≠
          Except.error "Input x must have same dimension as data!") ∧
      (([3] : List ℕ) = [3] →
        IdealDenoiser_call [4, 3] [5, 3] [] = Except.ok [5, 3])) :=
  ⟨by simp, by simp, C10_ideal_denoiser_dim 4 5 [3] [3] (by simp) (by simp)⟩

end Smalldiffusion
